import Mathlib

/-!
Verification of the pool memory allocator in `MemoryManager.h`.

The C++ source is shallowly embedded.  The heap is a byte-addressed memory
`Mem : Nat -> Nat`; machine pointers are `Nat` values reduced mod `2 ^ 64` at
the byte-access boundary (x86-64 little-endian); the operations
`InitializePool`, `Allocate` and `Free` of class `MemoryManager` are
translated statement by statement.  The `unordered_map<size_t, void*> mPool`
is an association list from block size to region base address, with the
`operator[]` default-insertion behaviour of the source modelled explicitly.
-/

set_option maxRecDepth 10000
set_option maxHeartbeats 1000000

/-- Byte-addressed memory.  A value of type `Mem` assigns to every (64-bit,
taken mod `2 ^ 64`) address the byte stored there (always reduced mod 256 on
read and write). -/
abbrev Mem := Nat → Nat

/-- Read the byte at address `a` (addresses wrap at `2 ^ 64`, bytes are
reduced mod 256, matching `unsigned char` loads in the source). -/
def readByte (m : Mem) (a : Nat) : Nat := m (a % 2 ^ 64) % 256

/-- Store byte `v` (reduced mod 256) at address `a` (reduced mod `2 ^ 64`). -/
def writeByte (m : Mem) (a v : Nat) : Mem := Function.update m (a % 2 ^ 64) (v % 256)

/-- Little-endian read of `k` consecutive bytes starting at `a`. -/
def readBytesLE (m : Mem) (a : Nat) : Nat → Nat
  | 0 => 0
  | k + 1 => readByte m a + 256 * readBytesLE m (a + 1) k

/-- Little-endian store of the `k` low bytes of `v` starting at `a`. -/
def writeBytesLE (m : Mem) (a v : Nat) : Nat → Mem
  | 0 => m
  | k + 1 => writeBytesLE (writeByte m a v) (a + 1) (v / 256) k

/-- Read a 64-bit word (a `uintptr_t` of the source) at byte address `a`. -/
def readWord (m : Mem) (a : Nat) : Nat := readBytesLE m a 8

/-- Store a 64-bit word (a `uintptr_t` of the source) at byte address `a`. -/
def writeWord (m : Mem) (a v : Nat) : Mem := writeBytesLE m a v 8

/-! ## The MemoryManager embedding -/

/-- 64-bit wrapping subtraction: the value of the C++ expression `a - b` at
type `uintptr_t`. -/
def wsub (a b : Nat) : Nat := (a + (2 ^ 64 - b % 2 ^ 64)) % 2 ^ 64

/-- Lookup in the `mPool` association list (the `unordered_map` keyed by
block size; values are region base addresses, `0` standing for `nullptr`). -/
def mapFind : List (Nat × Nat) → Nat → Option Nat
  | [], _ => none
  | (k, v) :: t, key => if k = key then some v else mapFind t key

/-- Insert-or-overwrite in the `mPool` association list. -/
def mapSet : List (Nat × Nat) → Nat → Nat → List (Nat × Nat)
  | [], key, val => [(key, val)]
  | (k, v) :: t, key, val =>
      if k = key then (key, val) :: t else (k, v) :: mapSet t key val

/-- The state of a `MemoryManager` object: the `mNumBlocksPerPool` field (an
`unsigned int`), the `mPool` map from block size to region base, and the
process heap the regions live in. -/
structure MemoryManager where
  mNumBlocksPerPool : Nat
  mPool : List (Nat × Nat)
  mem : Mem

/-- The source expression `mPool[size]`: `std::unordered_map::operator[]`
returns the stored value and, when the key is absent, default-inserts a
null (`0`) entry first. -/
def MemoryManager.poolIndex (σ : MemoryManager) (size : Nat) : MemoryManager × Nat :=
  match mapFind σ.mPool size with
  | some v => (σ, v)
  | none => ({ σ with mPool := mapSet σ.mPool size 0 }, 0)

/-- The loop of `InitializePool` (source lines 82-86): starting at block
address `curr`, write into each of `k` successive blocks the address of the
following block, advancing by `stride8` bytes (`stride` words) each time. -/
def initLinks (m : Mem) (curr stride8 : Nat) : Nat → Mem
  | 0 => m
  | k + 1 => initLinks (writeWord m curr (curr + stride8)) (curr + stride8) stride8 k

/-- The memory effect of `MemoryManager::InitializePool` on a freshly
reserved region at `base` (source lines 61-94).  `stride` is declared
`uint8_t`, hence the `% 256`; the loop writes `numBlocks - 1` links, then a
null link into the last block, then the address of block 0 into the trailer
slot one stride past the last block.  The bitmap bytes after the trailer are
never written. -/
def initRegion (m : Mem) (base size numBlocks : Nat) : Mem :=
  let stride8 := size / 8 % 256 * 8
  let m1 := initLinks m base stride8 (numBlocks - 1)
  let last := base + (numBlocks - 1) * stride8
  writeWord (writeWord m1 last 0) (last + stride8) base

/-- `MemoryManager::InitializePool`: reserve a region (the fresh address
`newRegion` models the result of `new char[...]`), store it in `mPool[size]`
and lay out the embedded free list.  The `numBlocks` parameter is declared
`uint16_t`, hence the `% 65536` at the call boundary. -/
def MemoryManager.InitializePool (σ : MemoryManager) (newRegion size numBlocks : Nat) :
    MemoryManager :=
  { σ with
    mPool := mapSet σ.mPool size newRegion,
    mem := initRegion σ.mem newRegion size (numBlocks % 65536) }

/-- The constructor `MemoryManager(numBlocksPerPool)` (source lines 23-31):
store the block count (an `unsigned int`, hence `% 2 ^ 32`) and eagerly
create pools for element sizes `2 ^ 3`, `2 ^ 4`, `2 ^ 5`.  The parameters
`b8 b16 b32` model the three heap addresses returned by `new`. -/
def mkMemoryManager (m : Mem) (numBlocksPerPool b8 b16 b32 : Nat) : MemoryManager :=
  let n := numBlocksPerPool % 2 ^ 32
  let σ0 : MemoryManager := ⟨n, [], m⟩
  let σ1 := σ0.InitializePool b8 (2 ^ 3) n
  let σ2 := σ1.InitializePool b16 (2 ^ 4) n
  σ2.InitializePool b32 (2 ^ 5) n

/-- Byte address of the trailer slot holding the first-free-block pointer:
the source expression `firstElementPtr + (dataTypeSize / sizeof(void*)) *
mNumBlocksPerPool` (pointer arithmetic on `uintptr_t*`, so in bytes it is
`8 * (size / 8 * numBlocks)` past the region base). -/
def trailerAddr (base size numBlocks : Nat) : Nat := base + 8 * (size / 8 * numBlocks)

/-- `MemoryManager::Allocate<T>` (source lines 97-152) for `sizeof(T) = size`.
`newRegion` models the address `new` would return should the lazy
`InitializePool` call fire.  Returns the updated manager and the allocated
address (`none` models the `nullptr` returned on pool exhaustion). -/
def MemoryManager.Allocate (σ : MemoryManager) (size newRegion : Nat) :
    MemoryManager × Option Nat :=
  let p1 := σ.poolIndex size
  let σ1 := if p1.2 = 0 then p1.1.InitializePool newRegion size p1.1.mNumBlocksPerPool else p1.1
  let p2 := σ1.poolIndex size
  let σ2 := p2.1
  let base := p2.2
  let last := trailerAddr base size σ2.mNumBlocksPerPool
  let h := readWord σ2.mem last
  if h = 0 then (σ2, none)
  else
    let idx := wsub h base / size % 2 ^ 32
    let byteAddr := last + 8 + idx / 8
    let shift := 8 - idx % 8 - 1
    let b := readByte σ2.mem byteAddr
    let m1 := writeByte σ2.mem byteAddr (b ||| 1 <<< shift)
    let next := readWord m1 h
    let m2 := writeWord m1 last next
    ({ σ2 with mem := m2 }, some h)

/-- Outcome of `MemoryManager::Free<T>`, one constructor per exit path of the
source (the `[FAILURE]` printf branches and the successful fall-through). -/
inductive FreeResult
  | success
  | invalidPointer
  | doubleFree
deriving DecidableEq

/-- `MemoryManager::Free<T>(ppBlock)` (source lines 155-207) for
`sizeof(T) = size`, where `addr` is the pointer value `*ppBlock`.  Returns
the updated manager, the exit path taken, and the value left in `*ppBlock`
(nulled to `0` only on success, source line 206). -/
def MemoryManager.Free (σ : MemoryManager) (size addr : Nat) :
    MemoryManager × FreeResult × Nat :=
  if addr = 0 then (σ, FreeResult.invalidPointer, addr)
  else
    let p := σ.poolIndex size
    let σ1 := p.1
    let base := p.2
    let last := trailerAddr base size σ1.mNumBlocksPerPool
    let idx := wsub addr base / size % 2 ^ 32
    let byteAddr := last + 8 + idx / 8
    let shift := 8 - idx % 8 - 1
    let b := readByte σ1.mem byteAddr
    if b &&& 1 <<< shift = 0 then (σ1, FreeResult.doubleFree, addr)
    else
      let m1 := writeByte σ1.mem byteAddr (b ^^^ 1 <<< shift)
      let m2 := writeWord m1 addr (readWord m1 last)
      let m3 := writeWord m2 last addr
      ({ σ1 with mem := m3 }, FreeResult.success, 0)

/-- `k`-fold iteration of `Allocate` (discarding the returned pointers),
used to express sequences of consecutive allocations. -/
def allocIter (σ : MemoryManager) (size : Nat) : Nat → MemoryManager
  | 0 => σ
  | k + 1 => ((allocIter σ size k).Allocate size 0).1

/-- `a` is the address of block `i` of the pool at `base` for some in-range
block index `i` (spec: block addresses are `region_base + i * blockSize`,
`0 <= i < blockCount`). -/
def GoodAddr (base size numBlocks a : Nat) : Prop :=
  ∃ i, i < numBlocks ∧ a = base + i * size

/-- `fl` is the chain of block addresses obtained from head value `h` by
following the next-pointers embedded in free blocks, ending in the null
sentinel. -/
def IsFreeList (m : Mem) : Nat → List Nat → Prop
  | h, [] => h = 0
  | h, a :: t => h = a ∧ IsFreeList m (readWord m a) t

/-- The block addresses of a pool at `base` with `numBlocks` blocks of
`size` bytes, in block order. -/
def blockList (base size numBlocks : Nat) : List Nat :=
  (List.range numBlocks).map fun i => base + i * size

/-- The fresh single-pool manager used for the C2 evidence: blockSize 8,
blockCount 4, region base 64, over a zeroed heap. -/
def sigC2 : MemoryManager := (MemoryManager.mk 4 [] (fun _ => 0)).InitializePool 64 8 4

/-- The fresh default manager used for the C1 evidence: three default pools
(sizes 8, 16, 32) at bases 1000, 2000, 3000 over a zeroed heap. -/
def sigC1 : MemoryManager := mkMemoryManager (fun _ => 0) 10 1000 2000 3000

/-- The fresh pool used for the C4 counterexample: blockSize 2048,
blockCount 1, base 4096, zeroed heap. -/
def sigC4x : MemoryManager := (MemoryManager.mk 1 [] (fun _ => 0)).InitializePool 4096 2048 1

/-- The fresh pool used for the C7 counterexample: blockSize 12 (which
satisfies `blockSize >= pointerWidth = 8`), blockCount 2, base 1000. -/
def sigC7x : MemoryManager := (MemoryManager.mk 2 [] (fun _ => 0)).InitializePool 1000 12 2

/-- The fresh pool used for the C8 counterexample: blockSize 8,
blockCount 1, base 64, constructed over a heap whose bytes read `0xFF`
(the bitmap is never zeroed, see `C3_bitmap_left_uninitialized`). -/
def sigC8x : MemoryManager := (MemoryManager.mk 1 [] (fun _ => 255)).InitializePool 64 8 1

/-- A manager holding exactly one freshly initialized pool: what
`InitializePool(size, N)` produces on a manager whose `mNumBlocksPerPool`
is `N`, over an arbitrary prior heap `m0`. -/
def freshPool (m0 : Mem) (base size N : Nat) : MemoryManager :=
  (MemoryManager.mk N [] m0).InitializePool base size N

/-! ## Block index and bitmap helpers (source lines 123-125 and 175-177) -/

/-- The source expression `(addr - base) / dataTypeSize` stored into the
`unsigned int indexBlockAllocated` (hence the final `% 2 ^ 32`). -/
def blockIndex (base size addr : Nat) : Nat := wsub addr base / size % 2 ^ 32

/-- Address of the bitmap byte holding the allocation bit of `addr`:
`lastElementPtr + sizeof(void*) + index / NUMBITSPERBYTE`. -/
def bitAddr (base size numBlocks addr : Nat) : Nat :=
  trailerAddr base size numBlocks + 8 + blockIndex base size addr / 8

/-- Shift of the allocation bit of `addr` inside its bitmap byte
(`NUMBITSPERBYTE - index % NUMBITSPERBYTE - 1`, MSB first). -/
def bitShift (base size addr : Nat) : Nat := 8 - blockIndex base size addr % 8 - 1

/-- Cons the address returned by an `Allocate` call (if any) onto the ghost
list of currently-allocated addresses. -/
def pushAlloc : Option Nat → List Nat → List Nat
  | some a, l => a :: l
  | none, l => l

/-- Pool states reachable through the public operations used according to
the spec contracts: starting from a freshly initialized pool (over an
arbitrary prior heap `m0`), any interleaving of `Allocate` calls and of
`Free` calls on currently-allocated addresses (§4.4: `Free` is given an
address previously returned by `Allocate` and not freed since).  The ghost
list tracks the currently-allocated addresses; a failed `Free` leaves it
unchanged. -/
inductive Reach (m0 : Mem) (size base numBlocks : Nat) :
    MemoryManager → List Nat → Prop
  | init : Reach m0 size base numBlocks (freshPool m0 base size numBlocks) []
  | alloc : ∀ σ A, Reach m0 size base numBlocks σ A →
      Reach m0 size base numBlocks (σ.Allocate size 0).1
        (pushAlloc (σ.Allocate size 0).2 A)
  | free : ∀ σ A a, Reach m0 size base numBlocks σ A → a ∈ A →
      Reach m0 size base numBlocks (σ.Free size a).1
        (if (σ.Free size a).2.1 = FreeResult.success then A.erase a else A)

/-- The pool invariant behind C7: registry entry and block count intact, and
the trailer heads a free-list chain of in-range block addresses which,
together with the currently-allocated addresses, form a duplicate-free
family of block addresses. -/
def PoolInv (size base numBlocks : Nat) (σ : MemoryManager) (A : List Nat) : Prop :=
  σ.mNumBlocksPerPool = numBlocks
  ∧ σ.mPool = [(size, base)]
  ∧ ∃ fl, IsFreeList σ.mem (readWord σ.mem (trailerAddr base size numBlocks)) fl
      ∧ (∀ a ∈ fl ++ A, GoodAddr base size numBlocks a)
      ∧ (fl ++ A).Nodup


theorem readByte_lt (m : Mem) (a : Nat) : readByte m a < 256 := by
  unfold readByte; omega

theorem readByte_writeByte_same (m : Mem) (a v : Nat) (ha : a < 2 ^ 64) :
    readByte (writeByte m a v) a = v % 256 := by
  unfold readByte writeByte
  rw [Nat.mod_eq_of_lt ha, Function.update_same]
  omega

theorem readByte_writeByte_of_ne (m : Mem) (a b v : Nat) (ha : a < 2 ^ 64) (hb : b < 2 ^ 64)
    (hne : a ≠ b) : readByte (writeByte m b v) a = readByte m a := by
  unfold readByte writeByte
  rw [Nat.mod_eq_of_lt ha, Nat.mod_eq_of_lt hb, Function.update_noteq hne]

theorem readByte_writeBytesLE_of_outside :
    ∀ (k : Nat) (m : Mem) (a v p : Nat), (p < a ∨ a + k ≤ p) → p < 2 ^ 64 → a + k ≤ 2 ^ 64 →
      readByte (writeBytesLE m a v k) p = readByte m p := by
  intro k
  induction k with
  | zero => intro m a v p _ _ _; rfl
  | succ k ih =>
      intro m a v p hout hp ha
      show readByte (writeBytesLE (writeByte m a v) (a + 1) (v / 256) k) p = _
      rw [ih _ _ _ _ (by omega) hp (by omega),
        readByte_writeByte_of_ne _ _ _ _ hp (by omega) (by omega)]

theorem readBytesLE_congr :
    ∀ (k : Nat) (m1 m2 : Mem) (a : Nat),
      (∀ p, a ≤ p → p < a + k → readByte m1 p = readByte m2 p) →
      readBytesLE m1 a k = readBytesLE m2 a k := by
  intro k
  induction k with
  | zero => intros; rfl
  | succ k ih =>
      intro m1 m2 a h
      show readByte m1 a + 256 * readBytesLE m1 (a + 1) k
          = readByte m2 a + 256 * readBytesLE m2 (a + 1) k
      rw [h a (le_refl a) (by omega), ih m1 m2 (a + 1) (fun p hp1 hp2 => h p (by omega) (by omega))]

theorem readBytesLE_writeBytesLE_same :
    ∀ (k : Nat) (m : Mem) (a v : Nat), a + k ≤ 2 ^ 64 →
      readBytesLE (writeBytesLE m a v k) a k = v % 256 ^ k := by
  intro k
  induction k with
  | zero => intro m a v _; simp [readBytesLE, Nat.mod_one]
  | succ k ih =>
      intro m a v h
      show readByte (writeBytesLE (writeByte m a v) (a + 1) (v / 256) k) a
            + 256 * readBytesLE (writeBytesLE (writeByte m a v) (a + 1) (v / 256) k) (a + 1) k
          = v % 256 ^ (k + 1)
      rw [readByte_writeBytesLE_of_outside _ _ _ _ _ (Or.inl (by omega)) (by omega) (by omega),
        readByte_writeByte_same _ _ _ (by omega), ih _ _ _ (by omega), pow_succ']
      exact (Nat.mod_mul).symm

theorem readBytesLE_lt : ∀ (k : Nat) (m : Mem) (a : Nat), readBytesLE m a k < 256 ^ k := by
  intro k
  induction k with
  | zero => intro m a; simp [readBytesLE]
  | succ k ih =>
      intro m a
      have h1 : readByte m a < 256 := readByte_lt m a
      have h2 := ih m (a + 1)
      show readByte m a + 256 * readBytesLE m (a + 1) k < 256 ^ (k + 1)
      rw [pow_succ']
      omega

theorem readWord_lt (m : Mem) (a : Nat) : readWord m a < 2 ^ 64 := by
  have h := readBytesLE_lt 8 m a
  unfold readWord
  norm_num at h ⊢
  exact h

theorem readWord_writeWord_same (m : Mem) (a v : Nat) (h : a + 8 ≤ 2 ^ 64) :
    readWord (writeWord m a v) a = v % 2 ^ 64 := by
  have hh := readBytesLE_writeBytesLE_same 8 m a v h
  unfold readWord writeWord
  norm_num at hh ⊢
  exact hh

theorem readWord_writeWord_of_disjoint (m : Mem) (a b v : Nat)
    (hd : a + 8 ≤ b ∨ b + 8 ≤ a) (ha : a + 8 ≤ 2 ^ 64) (hb : b + 8 ≤ 2 ^ 64) :
    readWord (writeWord m b v) a = readWord m a := by
  unfold readWord writeWord
  exact readBytesLE_congr 8 _ _ a (fun p hp1 hp2 =>
    readByte_writeBytesLE_of_outside 8 m b v p (by omega) (by omega) hb)

theorem readWord_writeByte_of_disjoint (m : Mem) (a b v : Nat)
    (hd : b < a ∨ a + 8 ≤ b) (ha : a + 8 ≤ 2 ^ 64) (hb : b < 2 ^ 64) :
    readWord (writeByte m b v) a = readWord m a := by
  unfold readWord
  exact readBytesLE_congr 8 _ _ a (fun p hp1 hp2 =>
    readByte_writeByte_of_ne _ _ _ _ (by omega) hb (by omega))

theorem readByte_writeWord_of_disjoint (m : Mem) (p a v : Nat)
    (hd : p < a ∨ a + 8 ≤ p) (hp : p < 2 ^ 64) (ha : a + 8 ≤ 2 ^ 64) :
    readByte (writeWord m a v) p = readByte m p :=
  readByte_writeBytesLE_of_outside 8 m a v p hd hp ha

/-! ## Arithmetic and layout lemmas -/

theorem wsub_eq_sub (a b : Nat) (hba : b ≤ a) (ha : a < 2 ^ 64) : wsub a b = a - b := by
  unfold wsub
  rw [Nat.mod_eq_of_lt (by omega : b < 2 ^ 64)]
  have h1 : a + (2 ^ 64 - b) = (a - b) + 2 ^ 64 := by omega
  rw [h1, Nat.add_mod_right, Nat.mod_eq_of_lt (by omega)]

theorem trailerAddr_eq (base size numBlocks : Nat) :
    trailerAddr base size numBlocks = base + numBlocks * (size / 8 * 8) := by
  unfold trailerAddr; ring_nf

theorem trailerAddr_eq_of_dvd (base size numBlocks : Nat) (h : 8 ∣ size) :
    trailerAddr base size numBlocks = base + numBlocks * size := by
  rw [trailerAddr_eq, Nat.div_mul_cancel h]

/-- Bytes strictly before `curr` or at/after `curr + k * stride8` are not
touched by the link-writing loop. -/
theorem readByte_initLinks_of_outside :
    ∀ (k : Nat) (m : Mem) (c s8 p : Nat), 8 ≤ s8 → (p < c ∨ c + k * s8 ≤ p) →
      p < 2 ^ 64 → c + k * s8 + 8 ≤ 2 ^ 64 →
      readByte (initLinks m c s8 k) p = readByte m p := by
  intro k
  induction k with
  | zero => intros; rfl
  | succ k ih =>
      intro m c s8 p h8 hout hp hb
      have hk : (k + 1) * s8 = k * s8 + s8 := by ring
      show readByte (initLinks (writeWord m c (c + s8)) (c + s8) s8 k) p = _
      rw [ih _ _ _ _ h8 (by omega) hp (by omega),
        readByte_writeWord_of_disjoint _ _ _ _ (by omega) hp (by omega)]

theorem readWord_initLinks_of_outside (k : Nat) (m : Mem) (c s8 a : Nat)
    (h8 : 8 ≤ s8) (hout : a + 8 ≤ c ∨ c + k * s8 ≤ a)
    (ha : a + 8 ≤ 2 ^ 64) (hb : c + k * s8 + 8 ≤ 2 ^ 64) :
    readWord (initLinks m c s8 k) a = readWord m a := by
  unfold readWord
  exact readBytesLE_congr 8 _ _ a (fun p hp1 hp2 =>
    readByte_initLinks_of_outside k m c s8 p h8 (by omega) (by omega) hb)

/-- After the link-writing loop, block `j` (of the `k` blocks written)
holds the address of the next block. -/
theorem readWord_initLinks :
    ∀ (k : Nat) (m : Mem) (c s8 j : Nat), 8 ≤ s8 → j < k → c + k * s8 + 8 ≤ 2 ^ 64 →
      readWord (initLinks m c s8 k) (c + j * s8) = c + j * s8 + s8 := by
  intro k
  induction k with
  | zero => intro m c s8 j _ hj _; omega
  | succ k ih =>
      intro m c s8 j h8 hj hb
      have hk : (k + 1) * s8 = k * s8 + s8 := by ring
      show readWord (initLinks (writeWord m c (c + s8)) (c + s8) s8 k) (c + j * s8) = _
      match j with
      | 0 =>
          simp only [Nat.zero_mul, Nat.add_zero]
          rw [readWord_initLinks_of_outside k _ (c + s8) s8 c h8 (Or.inl (by omega))
              (by omega) (by omega),
            readWord_writeWord_same _ _ _ (by omega), Nat.mod_eq_of_lt (by omega)]
      | j + 1 =>
          have ha : c + (j + 1) * s8 = (c + s8) + j * s8 := by ring
          have hv : (c + s8) + j * s8 + s8 = c + (j + 1) * s8 + s8 := by ring
          rw [ha, ih (writeWord m c (c + s8)) (c + s8) s8 j h8 (by omega) (by omega), hv]

/-- `initRegion` with the `uint8_t` stride spelled out, valid for
`size < 2048` (then `size / 8 < 256` and the truncation is the identity). -/
theorem initRegion_eq (m : Mem) (base size N : Nat) (hlt : size < 2048) :
    initRegion m base size N =
      writeWord (writeWord (initLinks m base (size / 8 * 8) (N - 1))
          (base + (N - 1) * (size / 8 * 8)) 0)
        (base + (N - 1) * (size / 8 * 8) + size / 8 * 8) base := by
  unfold initRegion
  rw [Nat.mod_eq_of_lt (by omega : size / 8 < 256)]

/-- After `InitializePool`, the trailer slot holds the address of block 0
(blocks laid `size / 8 * 8` bytes apart). -/
theorem readWord_initRegion_trailer (m : Mem) (base size N : Nat)
    (hsz : 8 ≤ size) (hlt : size < 2048) (hN : 1 ≤ N)
    (hb : base + N * (size / 8 * 8) + 16 ≤ 2 ^ 64) :
    readWord (initRegion m base size N) (base + N * (size / 8 * 8)) = base := by
  have h8 : 8 ≤ size / 8 * 8 := by
    have : 1 ≤ size / 8 := Nat.one_le_div_iff (by omega) |>.mpr hsz
    omega
  rw [initRegion_eq m base size N hlt]
  generalize hg : size / 8 * 8 = s8 at h8 hb ⊢
  have e1 : (N - 1) * s8 + s8 = N * s8 := by
    calc (N - 1) * s8 + s8 = ((N - 1) + 1) * s8 := by ring
    _ = N * s8 := by rw [Nat.sub_add_cancel hN]
  have h2 : base + (N - 1) * s8 + s8 = base + N * s8 := by omega
  rw [h2, readWord_writeWord_same _ _ _ (by omega), Nat.mod_eq_of_lt (by omega)]

/-- After `InitializePool`, the last block holds the null link. -/
theorem readWord_initRegion_last (m : Mem) (base size N : Nat)
    (hsz : 8 ≤ size) (hlt : size < 2048) (hN : 1 ≤ N)
    (hb : base + N * (size / 8 * 8) + 16 ≤ 2 ^ 64) :
    readWord (initRegion m base size N) (base + (N - 1) * (size / 8 * 8)) = 0 := by
  have h8 : 8 ≤ size / 8 * 8 := by
    have : 1 ≤ size / 8 := Nat.one_le_div_iff (by omega) |>.mpr hsz
    omega
  rw [initRegion_eq m base size N hlt]
  generalize hg : size / 8 * 8 = s8 at h8 hb ⊢
  have e1 : (N - 1) * s8 + s8 = N * s8 := by
    calc (N - 1) * s8 + s8 = ((N - 1) + 1) * s8 := by ring
    _ = N * s8 := by rw [Nat.sub_add_cancel hN]
  rw [readWord_writeWord_of_disjoint _ _ _ _ (Or.inl (by omega)) (by omega) (by omega),
    readWord_writeWord_same _ _ _ (by omega), Nat.zero_mod]

/-- After `InitializePool`, inner block `j` (with `j + 1 < numBlocks`) links
to block `j + 1`. -/
theorem readWord_initRegion_link (m : Mem) (base size N j : Nat)
    (hsz : 8 ≤ size) (hlt : size < 2048) (hj : j + 1 < N)
    (hb : base + N * (size / 8 * 8) + 16 ≤ 2 ^ 64) :
    readWord (initRegion m base size N) (base + j * (size / 8 * 8))
      = base + (j + 1) * (size / 8 * 8) := by
  have h8 : 8 ≤ size / 8 * 8 := by
    have : 1 ≤ size / 8 := Nat.one_le_div_iff (by omega) |>.mpr hsz
    omega
  rw [initRegion_eq m base size N hlt]
  generalize hg : size / 8 * 8 = s8 at h8 hb ⊢
  have e1 : (N - 1) * s8 + s8 = N * s8 := by
    calc (N - 1) * s8 + s8 = ((N - 1) + 1) * s8 := by ring
    _ = N * s8 := by rw [Nat.sub_add_cancel (by omega : 1 ≤ N)]
  have e2 : (j + 1) * s8 = j * s8 + s8 := by ring
  have e3 : (j + 1) * s8 ≤ (N - 1) * s8 := Nat.mul_le_mul_right s8 (by omega)
  rw [readWord_writeWord_of_disjoint _ _ _ _ (Or.inl (by omega)) (by omega) (by omega),
    readWord_writeWord_of_disjoint _ _ _ _ (Or.inl (by omega)) (by omega) (by omega),
    readWord_initLinks (N - 1) m base s8 j h8 (by omega) (by omega)]
  omega

/-- Degenerate pool with zero blocks: the slot that `InitializePool` filled
with the null link is block 0 itself. -/
theorem readWord_initRegion_zero (m : Mem) (base size : Nat)
    (hsz : 8 ≤ size) (hlt : size < 2048) (hb : base + size / 8 * 8 + 16 ≤ 2 ^ 64) :
    readWord (initRegion m base size 0) base = 0 := by
  have h8 : 8 ≤ size / 8 * 8 := by
    have : 1 ≤ size / 8 := Nat.one_le_div_iff (by omega) |>.mpr hsz
    omega
  rw [initRegion_eq m base size 0 hlt]
  generalize hg : size / 8 * 8 = s8 at h8 hb ⊢
  show readWord (writeWord (writeWord (initLinks m base s8 0) (base + (0 - 1) * s8) 0)
      (base + (0 - 1) * s8 + s8) base) base = 0
  have e1 : (0 - 1 : Nat) * s8 = 0 := by simp
  rw [e1, Nat.add_zero,
    readWord_writeWord_of_disjoint _ _ _ _ (Or.inl (by omega)) (by omega) (by omega),
    readWord_writeWord_same _ _ _ (by omega), Nat.zero_mod]

/-- Bytes strictly below the region base or at/after the bitmap offset
`base + max numBlocks 1 * stride + 8` are untouched by `InitializePool`;
in particular the allocation bitmap itself is never written. -/
theorem readByte_initRegion_of_outside (m : Mem) (base size N p : Nat)
    (hsz : 8 ≤ size) (hlt : size < 2048)
    (hout : p < base ∨ base + max N 1 * (size / 8 * 8) + 8 ≤ p)
    (hp : p < 2 ^ 64) (hb : base + max N 1 * (size / 8 * 8) + 16 ≤ 2 ^ 64) :
    readByte (initRegion m base size N) p = readByte m p := by
  have h8 : 8 ≤ size / 8 * 8 := by
    have : 1 ≤ size / 8 := Nat.one_le_div_iff (by omega) |>.mpr hsz
    omega
  rw [initRegion_eq m base size N hlt]
  generalize hg : size / 8 * 8 = s8 at h8 hout hb ⊢
  have e1 : (N - 1) * s8 + s8 = max N 1 * s8 := by
    rcases Nat.eq_zero_or_pos N with h | h
    · subst h; simp
    · have hm : max N 1 = N := by omega
      rw [hm]
      calc (N - 1) * s8 + s8 = ((N - 1) + 1) * s8 := by ring
      _ = N * s8 := by rw [Nat.sub_add_cancel h]
  rw [readByte_writeWord_of_disjoint _ _ _ _ (by omega) hp (by omega),
    readByte_writeWord_of_disjoint _ _ _ _ (by omega) hp (by omega),
    readByte_initLinks_of_outside (N - 1) m base s8 p h8 (by omega) hp (by omega)]

/-- Word-level version of `readByte_initRegion_of_outside`. -/
theorem readWord_initRegion_of_outside (m : Mem) (base size N a : Nat)
    (hsz : 8 ≤ size) (hlt : size < 2048)
    (hout : a + 8 ≤ base ∨ base + max N 1 * (size / 8 * 8) + 8 ≤ a)
    (ha : a + 8 ≤ 2 ^ 64) (hb : base + max N 1 * (size / 8 * 8) + 16 ≤ 2 ^ 64) :
    readWord (initRegion m base size N) a = readWord m a := by
  unfold readWord
  exact readBytesLE_congr 8 _ _ a (fun p hp1 hp2 =>
    readByte_initRegion_of_outside m base size N p hsz hlt (by omega) (by omega) hb)

theorem blockIndex_eq (base size i : Nat) (hsz : 0 < size) (hi : i < 2 ^ 32)
    (hb : base + i * size < 2 ^ 64) : blockIndex base size (base + i * size) = i := by
  unfold blockIndex
  rw [wsub_eq_sub _ _ (by omega) hb, Nat.add_sub_cancel_left,
    Nat.mul_div_cancel i hsz, Nat.mod_eq_of_lt hi]

theorem bitShift_lt (base size addr : Nat) : bitShift base size addr < 8 := by
  unfold bitShift
  omega

/-- Setting a bit with XOR clears it when it was set, and the byte stays a
byte. -/
theorem xor_bit_clears (b k : Nat) (hb : b < 256) (hk : k < 8)
    (h : b &&& 1 <<< k ≠ 0) :
    (b ^^^ 1 <<< k) &&& 1 <<< k = 0 ∧ b ^^^ 1 <<< k < 256 := by
  rw [Nat.shiftLeft_eq, Nat.one_mul] at h ⊢
  have htb : b.testBit k = true := by
    by_contra hc
    rw [Bool.not_eq_true] at hc
    rw [Nat.and_two_pow, hc] at h
    simp at h
  constructor
  · rw [Nat.and_two_pow, Nat.testBit_xor, htb, Nat.testBit_two_pow_self]
    simp
  · have h1 : (2 : Nat) ^ k < 2 ^ 8 :=
      Nat.pow_lt_pow_right (by norm_num) hk
    have h2 : b < 2 ^ 8 := by norm_num [hb]
    have h3 := Nat.xor_lt_two_pow h2 h1
    norm_num at h3
    exact h3

/-! ## Characterizations of the three operations -/

/-- `Free(nullptr)` (source lines 162-168): reported as an invalid pointer
before anything — including the registry probe — happens. -/
theorem Free_null (σ : MemoryManager) (size : Nat) :
    σ.Free size 0 = (σ, FreeResult.invalidPointer, 0) := rfl

/-- `Allocate` when the pool exists and its trailer holds the null sentinel
(source lines 112-118): returns `nullptr`, state untouched. -/
theorem Allocate_exhausted (σ : MemoryManager) (size nb base : Nat)
    (hfind : mapFind σ.mPool size = some base) (hbase : base ≠ 0)
    (hh : readWord σ.mem (trailerAddr base size σ.mNumBlocksPerPool) = 0) :
    σ.Allocate size nb = (σ, none) := by
  unfold MemoryManager.Allocate MemoryManager.poolIndex
  rw [hfind]
  simp only [if_neg hbase, hfind, hh]
  simp

/-- `Allocate` when the pool exists and the free list is nonempty (source
lines 120-151): sets the head block's bitmap bit by OR, advances the trailer
to the head block's embedded link, and returns the head block. -/
theorem Allocate_success (σ : MemoryManager) (size nb base h : Nat)
    (hfind : mapFind σ.mPool size = some base) (hbase : base ≠ 0)
    (hh : readWord σ.mem (trailerAddr base size σ.mNumBlocksPerPool) = h) (hne : h ≠ 0) :
    σ.Allocate size nb =
      ({ σ with
          mem :=
            (writeWord
              (writeByte σ.mem (bitAddr base size σ.mNumBlocksPerPool h)
                (readByte σ.mem (bitAddr base size σ.mNumBlocksPerPool h)
                  ||| 1 <<< bitShift base size h))
              (trailerAddr base size σ.mNumBlocksPerPool)
              (readWord
                (writeByte σ.mem (bitAddr base size σ.mNumBlocksPerPool h)
                  (readByte σ.mem (bitAddr base size σ.mNumBlocksPerPool h)
                    ||| 1 <<< bitShift base size h)) h)) },
        some h) := by
  unfold MemoryManager.Allocate MemoryManager.poolIndex bitAddr bitShift blockIndex
  rw [hfind]
  simp only [if_neg hbase, hfind, hh, if_neg hne]

/-- `Free` of a non-null address whose bitmap bit is clear (source lines
179-188): reported as a double free, nothing written, the caller's pointer
not nulled. -/
theorem Free_doubleFree (σ : MemoryManager) (size addr base : Nat)
    (hfind : mapFind σ.mPool size = some base) (ha : addr ≠ 0)
    (hbit : readByte σ.mem (bitAddr base size σ.mNumBlocksPerPool addr)
      &&& 1 <<< bitShift base size addr = 0) :
    σ.Free size addr = (σ, FreeResult.doubleFree, addr) := by
  unfold bitAddr bitShift blockIndex at hbit
  unfold MemoryManager.Free MemoryManager.poolIndex
  rw [if_neg ha, hfind]
  simp only [hbit]
  simp

/-- `Free` of a non-null address whose bitmap bit is set (source lines
190-206): clears the bit by XOR, writes the old head into the freed block,
makes the block the new head, and nulls the caller's pointer. -/
theorem Free_success (σ : MemoryManager) (size addr base : Nat)
    (hfind : mapFind σ.mPool size = some base) (ha : addr ≠ 0)
    (hbit : readByte σ.mem (bitAddr base size σ.mNumBlocksPerPool addr)
      &&& 1 <<< bitShift base size addr ≠ 0) :
    σ.Free size addr =
      ({ σ with
          mem :=
            (writeWord
              (writeWord
                (writeByte σ.mem (bitAddr base size σ.mNumBlocksPerPool addr)
                  (readByte σ.mem (bitAddr base size σ.mNumBlocksPerPool addr)
                    ^^^ 1 <<< bitShift base size addr))
                addr
                (readWord
                  (writeByte σ.mem (bitAddr base size σ.mNumBlocksPerPool addr)
                    (readByte σ.mem (bitAddr base size σ.mNumBlocksPerPool addr)
                      ^^^ 1 <<< bitShift base size addr))
                  (trailerAddr base size σ.mNumBlocksPerPool)))
              (trailerAddr base size σ.mNumBlocksPerPool) addr) },
        FreeResult.success, 0) := by
  unfold bitAddr bitShift blockIndex at hbit
  unfold MemoryManager.Free MemoryManager.poolIndex
  rw [if_neg ha, hfind]
  simp only [if_neg hbit]
  unfold bitAddr bitShift blockIndex trailerAddr
  simp

/-! ## Free-list lemmas -/

/-- A free-list chain is preserved by any memory change that leaves the
words stored at its member blocks unchanged. -/
theorem isFreeList_congr :
    ∀ (fl : List Nat) (m1 m2 : Mem) (h : Nat),
      IsFreeList m1 h fl → (∀ a ∈ fl, readWord m2 a = readWord m1 a) →
      IsFreeList m2 h fl := by
  intro fl
  induction fl with
  | nil => intro m1 m2 h hf _; exact hf
  | cons a t ih =>
      intro m1 m2 h hf hag
      obtain ⟨h1, h2⟩ := hf
      refine ⟨h1, ?_⟩
      rw [hag a (List.mem_cons_self a t)]
      exact ih m1 m2 _ h2 (fun x hx => hag x (List.mem_cons_of_mem a hx))

/-- Construction of the free list laid out by `InitializePool` from the
individual link facts. -/
theorem isFreeList_chain (m : Mem) (base s8 N : Nat)
    (hlink : ∀ j, j + 1 < N → readWord m (base + j * s8) = base + (j + 1) * s8)
    (hlast : readWord m (base + (N - 1) * s8) = 0) :
    ∀ d k, k + d = N →
      IsFreeList m (if d = 0 then 0 else base + k * s8)
        ((List.range d).map fun i => base + (k + i) * s8) := by
  intro d
  induction d with
  | zero => intro k hk; simp [IsFreeList]
  | succ d ih =>
      intro k hk
      rw [List.range_succ_eq_map, List.map_cons, List.map_map]
      have e : (List.range d).map ((fun i => base + (k + i) * s8) ∘ Nat.succ)
          = (List.range d).map fun i => base + ((k + 1) + i) * s8 := by
        congr 1
        funext i
        show base + (k + (i + 1)) * s8 = base + ((k + 1) + i) * s8
        ring_nf
      rw [e]
      show IsFreeList m (base + k * s8) ((base + (k + 0) * s8) :: _)
      refine ⟨by simp, ?_⟩
      match d with
      | 0 =>
          have hk1 : k = N - 1 := by omega
          simp only [Nat.add_zero]
          rw [hk1, hlast]
          simp [IsFreeList]
      | d + 1 =>
          have hl := hlink k (by omega)
          simp only [Nat.add_zero]
          rw [hl]
          have := ih (k + 1) (by omega)
          simpa using this

/-- The free list of a freshly initialized pool: block 0 at the head,
blocks chained in order, `size / 8 * 8` bytes apart. -/
theorem isFreeList_init (m : Mem) (base size N : Nat) (hsz : 8 ≤ size) (hlt : size < 2048)
    (hb : base + (N + 1) * (size / 8 * 8) + 16 ≤ 2 ^ 64) :
    IsFreeList (initRegion m base size N)
      (readWord (initRegion m base size N) (trailerAddr base size N))
      (blockList base (size / 8 * 8) N) := by
  have h8 : 8 ≤ size / 8 * 8 := by
    have : 1 ≤ size / 8 := Nat.one_le_div_iff (by omega) |>.mpr hsz
    omega
  have hNb : N * (size / 8 * 8) + (size / 8 * 8) = (N + 1) * (size / 8 * 8) := by ring
  rcases Nat.eq_zero_or_pos N with h0 | hN
  · subst h0
    rw [trailerAddr_eq]
    simp only [Nat.zero_mul, Nat.add_zero]
    rw [readWord_initRegion_zero m base size hsz hlt (by omega)]
    simp [blockList, IsFreeList]
  · rw [trailerAddr_eq,
      readWord_initRegion_trailer m base size N hsz hlt hN (by omega)]
    have hchain := isFreeList_chain (initRegion m base size N) base (size / 8 * 8) N
      (fun j hj => readWord_initRegion_link m base size N j hsz hlt hj (by omega))
      (readWord_initRegion_last m base size N hsz hlt hN (by omega))
      N 0 (by omega)
    have e : (List.range N).map (fun i => base + (0 + i) * (size / 8 * 8))
        = blockList base (size / 8 * 8) N := by
      unfold blockList
      congr 1
      funext i
      simp
    rw [e] at hchain
    have hne : N ≠ 0 := by omega
    rw [if_neg hne] at hchain
    simpa using hchain

/-! ## Claim theorems -/

/-- C9: for every allocator state and every size class, calling `Free` with
a null supplied address is a no-op reported as invalid pointer: the manager
— every pool's free list, bitmap and registry entry — is returned unchanged
and the caller's pointer stays null. -/
theorem C9_free_null_is_noop (σ : MemoryManager) (size : Nat) :
    σ.Free size 0 = (σ, FreeResult.invalidPointer, 0) :=
  Free_null σ size

/-- C3 (code bug): `InitializePool` never writes the allocation bitmap
(`new char[]` does not zero it).  Over a heap whose bytes read `0xFF`, the
bitmap byte of a freshly constructed pool (blockSize 8, blockCount 4) still
reads `0xFF`: every block is recorded as allocated, not free. -/
theorem C3_bitmap_left_uninitialized :
    readByte (initRegion (fun _ => 255) 64 8 4) (trailerAddr 64 8 4 + 8) = 255 := by
  decide

/-- C2 (code bug): `Free` performs no range check.  The address
`64 + 4 * 8 = 96` has block index 4, outside `[0, 4)`; the code does not
fail with an out-of-range error (no such exit path exists) but probes the
bitmap beyond the block range — here the stray bit is 0, so the call is
misreported as a double free (state unchanged only by luck of the probe). -/
theorem C2_out_of_range_unchecked :
    blockIndex 64 8 96 = 4 ∧ sigC2.Free 8 96 = (sigC2, FreeResult.doubleFree, 96) :=
  ⟨by decide, Free_doubleFree sigC2 8 96 64 (by decide) (by decide) (by decide)⟩

/-- C1 (code bug): `Free` for a size class never created (here 64) does not
fail with an unknown-size-class error — no such exit path exists.  The
`mPool[size]` probe default-inserts a null entry into the registry and the
code marches on with arithmetic relative to the null base (undefined
behaviour in C++; over a zeroed heap it is misreported as a double free). -/
theorem C1_unknown_size_class_unchecked :
    mapFind sigC1.mPool 64 = none
      ∧ (sigC1.Free 64 4096).2.1 = FreeResult.doubleFree
      ∧ mapFind ((sigC1.Free 64 4096).1).mPool 64 = some 0 := by
  refine ⟨by decide, by decide, by decide⟩

/-- C4 (counterexample): on a freshly constructed pool with `N = 1` block
and blockSize 2048, the first `Allocate` already fails — `InitializePool`
stores `blockSize / 8` in a `uint8_t`, so for blockSize 2048 the stride
truncates to 0 and the trailer slot `Allocate` reads was never written. -/
theorem C4_counterexample_size2048 :
    (sigC4x.Allocate 2048 0).2 = none := by
  decide

/-- C7 (counterexample): with blockSize 12 the blocks are laid
`12 / 8 * 8 = 8` bytes apart, so the second `Allocate` hands out address
`1008`, which is not `region_base + i * blockSize` for any `i < 2`. -/
theorem C7_counterexample_size12 :
    ((allocIter sigC7x 12 1).Allocate 12 0).2 = some 1008 ∧ ¬ GoodAddr 1000 12 2 1008 := by
  constructor
  · decide
  · rintro ⟨i, hi, he⟩
    omega

/-- C8 (counterexample): a reachable state — a freshly constructed pool
over an uninitialized heap — in which the bitmap bit of the free-list head
is already 1; `Allocate` does not abort or panic (it has no such branch and
never inspects the bit): it succeeds normally, silently masking the
condition with its unconditional OR. -/
theorem C8_counterexample_no_abort :
    readByte sigC8x.mem (bitAddr 64 8 1 64) &&& 1 <<< bitShift 64 8 64 ≠ 0
      ∧ (sigC8x.Allocate 8 0).2 = some 64 := by
  refine ⟨by decide, by decide⟩

/-- C10 (counterexample): constructing the allocator with
`blocksPerPool = 65536` creates the three default pools, but each with
`65536 % 2 ^ 16 = 0` blocks (`InitializePool` takes the count as
`uint16_t`): the size-8 pool exists yet cannot serve a single allocation,
so it does not have `n` blocks as claimed. -/
theorem C10_counterexample_uint16_truncation :
    mapFind (mkMemoryManager (fun _ => 0) 65536 1000 2000 3000).mPool 8 = some 1000
      ∧ ((mkMemoryManager (fun _ => 0) 65536 1000 2000 3000).Allocate 8 0).2 = none := by
  refine ⟨by decide, by decide⟩

/-! ## The allocation sequence on a fresh pool (C4) -/

theorem freshPool_mPool (m0 : Mem) (base size N : Nat) :
    (freshPool m0 base size N).mPool = [(size, base)] := rfl

theorem freshPool_mN (m0 : Mem) (base size N : Nat) :
    (freshPool m0 base size N).mNumBlocksPerPool = N := rfl

theorem freshPool_mem (m0 : Mem) (base size N : Nat) (hN16 : N < 65536) :
    (freshPool m0 base size N).mem = initRegion m0 base size N := by
  show initRegion m0 base size (N % 65536) = _
  rw [Nat.mod_eq_of_lt hN16]


/-- Projection form of `Allocate_success`, convenient for rewriting. -/
theorem Allocate_success_parts (σ : MemoryManager) (size nb base h : Nat)
    (hfind : mapFind σ.mPool size = some base) (hbase : base ≠ 0)
    (hh : readWord σ.mem (trailerAddr base size σ.mNumBlocksPerPool) = h) (hne : h ≠ 0) :
    (σ.Allocate size nb).1.mPool = σ.mPool
    ∧ (σ.Allocate size nb).1.mNumBlocksPerPool = σ.mNumBlocksPerPool
    ∧ (σ.Allocate size nb).1.mem =
        writeWord
          (writeByte σ.mem (bitAddr base size σ.mNumBlocksPerPool h)
            (readByte σ.mem (bitAddr base size σ.mNumBlocksPerPool h)
              ||| 1 <<< bitShift base size h))
          (trailerAddr base size σ.mNumBlocksPerPool)
          (readWord
            (writeByte σ.mem (bitAddr base size σ.mNumBlocksPerPool h)
              (readByte σ.mem (bitAddr base size σ.mNumBlocksPerPool h)
                ||| 1 <<< bitShift base size h)) h)
    ∧ (σ.Allocate size nb).2 = some h := by
  rw [Allocate_success σ size nb base h hfind hbase hh hne]
  exact ⟨rfl, rfl, rfl, rfl⟩

/-- State of a fresh pool after `k ≤ N` allocations: the registry and the
block count are untouched, the trailer points at block `k` (or holds the
sentinel once `k = N`), and the links of the not-yet-allocated blocks still
hold their initial values. -/
theorem allocIter_fresh_spec (m0 : Mem) (base size N : Nat)
    (hsz : 8 ≤ size) (hlt : size < 2048) (hbase : 0 < base) (hN16 : N < 65536)
    (hb : base + (N + 1) * size + N + 64 ≤ 2 ^ 64) :
    ∀ k, k ≤ N →
      (allocIter (freshPool m0 base size N) size k).mPool = [(size, base)]
      ∧ (allocIter (freshPool m0 base size N) size k).mNumBlocksPerPool = N
      ∧ readWord (allocIter (freshPool m0 base size N) size k).mem (trailerAddr base size N)
          = (if k = N then 0 else base + k * (size / 8 * 8))
      ∧ ∀ j, k ≤ j → j < N →
          readWord (allocIter (freshPool m0 base size N) size k).mem
              (base + j * (size / 8 * 8))
            = (if j + 1 = N then 0 else base + (j + 1) * (size / 8 * 8)) := by
  have h8 : 8 ≤ size / 8 * 8 := by
    have : 1 ≤ size / 8 := Nat.one_le_div_iff (by omega) |>.mpr hsz
    omega
  have hs8le : size / 8 * 8 ≤ size := Nat.div_mul_le_self size 8
  have e3 : N * (size / 8 * 8) ≤ (N + 1) * size := Nat.mul_le_mul (by omega) hs8le
  have e6 : size ≤ (N + 1) * size := Nat.le_mul_of_pos_left size (by omega)
  have e7 : (N + 1) * (size / 8 * 8) ≤ (N + 1) * size := Nat.mul_le_mul (by omega) hs8le
  have hTR : trailerAddr base size N = base + N * (size / 8 * 8) := trailerAddr_eq base size N
  intro k
  induction k with
  | zero =>
      intro _
      simp only [allocIter]
      refine ⟨rfl, rfl, ?_, ?_⟩
      · rw [freshPool_mem m0 base size N hN16, trailerAddr_eq]
        rcases Nat.eq_zero_or_pos N with h0 | hN
        · subst h0
          simp only [Nat.zero_mul, Nat.add_zero, if_pos rfl]
          exact readWord_initRegion_zero m0 base size hsz hlt (by omega)
        · rw [if_neg (by omega)]
          have h := readWord_initRegion_trailer m0 base size N hsz hlt hN (by omega)
          simpa using h
      · intro j hj0 hjN
        rw [freshPool_mem m0 base size N hN16]
        have hj1 : (j + 1) * (size / 8 * 8) ≤ N * (size / 8 * 8) :=
          Nat.mul_le_mul_right _ (by omega)
        rcases Nat.eq_or_lt_of_le (by omega : j + 1 ≤ N) with he | hlt2
        · rw [if_pos he]
          have hj : j = N - 1 := by omega
          rw [hj]
          exact readWord_initRegion_last m0 base size N hsz hlt (by omega) (by omega)
        · rw [if_neg (by omega)]
          exact readWord_initRegion_link m0 base size N j hsz hlt (by omega) (by omega)
  | succ k ih =>
      intro hk1
      have hkN : k < N := by omega
      obtain ⟨hP, hM, hT, hL⟩ := ih (by omega)
      have e1 : k * (size / 8 * 8) + (size / 8 * 8) = (k + 1) * (size / 8 * 8) := by ring
      have e2 : (k + 1) * (size / 8 * 8) ≤ N * (size / 8 * 8) :=
        Nat.mul_le_mul_right _ (by omega)
      have hfind : mapFind (allocIter (freshPool m0 base size N) size k).mPool size
          = some base := by
        rw [hP]; simp [mapFind]
      have hTk : readWord (allocIter (freshPool m0 base size N) size k).mem
          (trailerAddr base size
            (allocIter (freshPool m0 base size N) size k).mNumBlocksPerPool)
          = base + k * (size / 8 * 8) := by
        rw [hM, hT, if_neg (by omega)]
      have hne : base + k * (size / 8 * 8) ≠ 0 := by omega
      obtain ⟨gP, gM, gmem, gres⟩ := Allocate_success_parts
        (allocIter (freshPool m0 base size N) size k) size 0
        base (base + k * (size / 8 * 8)) hfind (by omega) hTk hne
      have hidx : blockIndex base size (base + k * (size / 8 * 8)) ≤ k := by
        unfold blockIndex
        have hw : wsub (base + k * (size / 8 * 8)) base = k * (size / 8 * 8) := by
          rw [wsub_eq_sub _ _ (by omega) (by omega)]
          omega
        rw [hw]
        have hd1 : k * (size / 8 * 8) / size ≤ k * size / size :=
          Nat.div_le_div_right (Nat.mul_le_mul_left k hs8le)
        rw [Nat.mul_div_cancel k (by omega : 0 < size)] at hd1
        exact le_trans (Nat.mod_le _ _) hd1
      have hBA1 : trailerAddr base size N + 8
          ≤ bitAddr base size N (base + k * (size / 8 * 8)) := by
        unfold bitAddr
        omega
      have hBA2 : bitAddr base size N (base + k * (size / 8 * 8))
          ≤ trailerAddr base size N + 8 + k := by
        unfold bitAddr
        omega
      rw [hM] at gmem
      simp only [allocIter]
      refine ⟨by rw [gP, hP], by rw [gM, hM], ?_, ?_⟩
      · rw [gmem,
          readWord_writeWord_same _ _ _ (by omega),
          readWord_writeByte_of_disjoint _ _ _ _ (Or.inr (by omega)) (by omega) (by omega),
          hL k (le_refl k) hkN]
        rcases Nat.eq_or_lt_of_le (by omega : k + 1 ≤ N) with he | hlt2
        · rw [if_pos he]
          exact Nat.zero_mod _
        · have e8 : (k + 1) * (size / 8 * 8) ≤ (N + 1) * size := le_trans e2 e3
          rw [if_neg (by omega : ¬ k + 1 = N)]
          exact Nat.mod_eq_of_lt (by omega)
      · intro j hj1 hjN
        have e4 : j * (size / 8 * 8) + (size / 8 * 8) = (j + 1) * (size / 8 * 8) := by ring
        have e5 : (j + 1) * (size / 8 * 8) ≤ N * (size / 8 * 8) :=
          Nat.mul_le_mul_right _ (by omega)
        rw [gmem,
          readWord_writeWord_of_disjoint _ _ _ _ (Or.inl (by omega)) (by omega) (by omega),
          readWord_writeByte_of_disjoint _ _ _ _ (Or.inr (by omega)) (by omega) (by omega),
          hL j (by omega) hjN]

/-- C4 (amended): for every freshly constructed pool with `N` blocks and
blockSize in `[pointerWidth, 2048)` — the stride byte `uint8_t stride =
size / 8` caps the usable block size, see `C4_counterexample_size2048` —
`N` consecutive `Allocate` calls all succeed and return `N` pairwise
distinct addresses, the `(N+1)`-th call fails returning the null result,
and the failing call returns the manager (registry, free list, bitmap)
completely unchanged. -/
theorem C4_exhaustion_amended (m0 : Mem) (base size N : Nat)
    (hsz : 8 ≤ size) (hlt : size < 2048) (hbase : 0 < base) (hN16 : N < 65536)
    (hb : base + (N + 1) * size + N + 64 ≤ 2 ^ 64) :
    (∀ k, k < N →
      ((allocIter (freshPool m0 base size N) size k).Allocate size 0).2
        = some (base + k * (size / 8 * 8)))
    ∧ (∀ j k, j < N → k < N → j ≠ k →
      ((allocIter (freshPool m0 base size N) size j).Allocate size 0).2
        ≠ ((allocIter (freshPool m0 base size N) size k).Allocate size 0).2)
    ∧ (allocIter (freshPool m0 base size N) size N).Allocate size 0
        = (allocIter (freshPool m0 base size N) size N, none) := by
  have h8 : 8 ≤ size / 8 * 8 := by
    have : 1 ≤ size / 8 := Nat.one_le_div_iff (by omega) |>.mpr hsz
    omega
  have hsucc : ∀ k, k < N →
      ((allocIter (freshPool m0 base size N) size k).Allocate size 0).2
        = some (base + k * (size / 8 * 8)) := by
    intro k hk
    obtain ⟨hP, hM, hT, _⟩ := allocIter_fresh_spec m0 base size N hsz hlt hbase hN16 hb k
      (by omega)
    have hfind : mapFind (allocIter (freshPool m0 base size N) size k).mPool size
        = some base := by
      rw [hP]; simp [mapFind]
    have hTk : readWord (allocIter (freshPool m0 base size N) size k).mem
        (trailerAddr base size
          (allocIter (freshPool m0 base size N) size k).mNumBlocksPerPool)
        = base + k * (size / 8 * 8) := by
      rw [hM, hT, if_neg (by omega)]
    exact (Allocate_success_parts (allocIter (freshPool m0 base size N) size k) size 0
      base (base + k * (size / 8 * 8)) hfind (by omega) hTk (by omega)).2.2.2
  refine ⟨hsucc, ?_, ?_⟩
  · intro j k hj hk hjk
    rw [hsucc j hj, hsucc k hk]
    intro hcon
    have heq : base + j * (size / 8 * 8) = base + k * (size / 8 * 8) :=
      Option.some.injEq _ _ ▸ hcon
    have heq2 : j * (size / 8 * 8) = k * (size / 8 * 8) := by omega
    exact hjk (Nat.eq_of_mul_eq_mul_right (by omega) heq2)
  · obtain ⟨hP, hM, hT, _⟩ := allocIter_fresh_spec m0 base size N hsz hlt hbase hN16 hb N
      (le_refl N)
    have hfind : mapFind (allocIter (freshPool m0 base size N) size N).mPool size
        = some base := by
      rw [hP]; simp [mapFind]
    have hT0 : readWord (allocIter (freshPool m0 base size N) size N).mem
        (trailerAddr base size
          (allocIter (freshPool m0 base size N) size N).mNumBlocksPerPool) = 0 := by
      rw [hM, hT, if_pos rfl]
    exact Allocate_exhausted _ size 0 base hfind (by omega) hT0

/-- Witness for `C4_exhaustion_amended` at blockSize 8, 2 blocks, base 64,
over the zeroed heap. -/
theorem C4_exhaustion_amended_witness :
    (8 ≤ 8 ∧ (8 : Nat) < 2048 ∧ (0 : Nat) < 64 ∧ (2 : Nat) < 65536
      ∧ 64 + (2 + 1) * 8 + 2 + 64 ≤ 2 ^ 64)
    ∧ ((∀ k, k < 2 →
        ((allocIter (freshPool (fun _ => 0) 64 8 2) 8 k).Allocate 8 0).2
          = some (64 + k * (8 / 8 * 8)))
      ∧ (∀ j k, j < 2 → k < 2 → j ≠ k →
        ((allocIter (freshPool (fun _ => 0) 64 8 2) 8 j).Allocate 8 0).2
          ≠ ((allocIter (freshPool (fun _ => 0) 64 8 2) 8 k).Allocate 8 0).2)
      ∧ (allocIter (freshPool (fun _ => 0) 64 8 2) 8 2).Allocate 8 0
          = (allocIter (freshPool (fun _ => 0) 64 8 2) 8 2, none)) :=
  ⟨⟨le_refl 8, by norm_num, by norm_num, by norm_num, by norm_num⟩,
    C4_exhaustion_amended (fun _ => 0) 64 8 2 (le_refl 8) (by norm_num) (by norm_num)
      (by norm_num) (by norm_num)⟩

/-- Projection form of `Free_success`, convenient for rewriting. -/
theorem Free_success_parts (σ : MemoryManager) (size addr base : Nat)
    (hfind : mapFind σ.mPool size = some base) (ha : addr ≠ 0)
    (hbit : readByte σ.mem (bitAddr base size σ.mNumBlocksPerPool addr)
      &&& 1 <<< bitShift base size addr ≠ 0) :
    (σ.Free size addr).1.mPool = σ.mPool
    ∧ (σ.Free size addr).1.mNumBlocksPerPool = σ.mNumBlocksPerPool
    ∧ (σ.Free size addr).1.mem =
        writeWord
          (writeWord
            (writeByte σ.mem (bitAddr base size σ.mNumBlocksPerPool addr)
              (readByte σ.mem (bitAddr base size σ.mNumBlocksPerPool addr)
                ^^^ 1 <<< bitShift base size addr))
            addr
            (readWord
              (writeByte σ.mem (bitAddr base size σ.mNumBlocksPerPool addr)
                (readByte σ.mem (bitAddr base size σ.mNumBlocksPerPool addr)
                  ^^^ 1 <<< bitShift base size addr))
              (trailerAddr base size σ.mNumBlocksPerPool)))
          (trailerAddr base size σ.mNumBlocksPerPool) addr
    ∧ (σ.Free size addr).2.1 = FreeResult.success
    ∧ (σ.Free size addr).2.2 = 0 := by
  rw [Free_success σ size addr base hfind ha hbit]
  exact ⟨rfl, rfl, rfl, rfl, rfl⟩

/-- C6: for every pool state and every currently-allocated block address
`A = base + i * blockSize` (in range, bitmap bit set), a successful `Free`
of `A` followed immediately by an `Allocate` of the same size class returns
exactly `A`: the freed block becomes the new free-list head (LIFO) and is
the next block reused. -/
theorem C6_lifo_reuse (σ : MemoryManager) (size base N i nb : Nat)
    (hfind : mapFind σ.mPool size = some base) (hbase : 0 < base)
    (hM : σ.mNumBlocksPerPool = N) (hi : i < N)
    (hb : base + size * N + N + 64 ≤ 2 ^ 64)
    (hbit : readByte σ.mem (bitAddr base size N (base + i * size))
      &&& 1 <<< bitShift base size (base + i * size) ≠ 0) :
    (σ.Free size (base + i * size)).2.1 = FreeResult.success
    ∧ ((σ.Free size (base + i * size)).1.Allocate size nb).2
        = some (base + i * size) := by
  have hA1 : i * size ≤ size * N := by
    have h := Nat.mul_le_mul_right size (le_of_lt hi)
    have h2 : N * size = size * N := Nat.mul_comm N size
    omega
  have hTRb : 8 * (size / 8 * N) ≤ size * N := by
    have h1 : 8 * (size / 8 * N) = size / 8 * 8 * N := by ring
    have h2 : size / 8 * 8 * N ≤ size * N :=
      Nat.mul_le_mul_right N (Nat.div_mul_le_self size 8)
    omega
  have hAne : base + i * size ≠ 0 := by omega
  rw [← hM] at hbit
  obtain ⟨fP, fM, fmem, fres, _⟩ :=
    Free_success_parts σ size (base + i * size) base hfind hAne hbit
  refine ⟨fres, ?_⟩
  have hfind2 : mapFind (σ.Free size (base + i * size)).1.mPool size = some base := by
    rw [fP]; exact hfind
  have hT2 : readWord (σ.Free size (base + i * size)).1.mem
      (trailerAddr base size (σ.Free size (base + i * size)).1.mNumBlocksPerPool)
      = base + i * size := by
    rw [fM, fmem, hM]
    unfold trailerAddr
    rw [readWord_writeWord_same _ _ _ (by omega)]
    exact Nat.mod_eq_of_lt (by omega)
  exact (Allocate_success_parts (σ.Free size (base + i * size)).1 size nb base
    (base + i * size) hfind2 (by omega) hT2 hAne).2.2.2

/-- Witness for `C6_lifo_reuse`: one pool of blockSize 8, one block, base
64, with the bitmap bit of block 0 set (byte 255 at the bitmap address). -/
theorem C6_lifo_reuse_witness :
    (readByte (writeByte (fun _ => 0) 80 255) (bitAddr 64 8 1 (64 + 0 * 8))
        &&& 1 <<< bitShift 64 8 (64 + 0 * 8) ≠ 0)
    ∧ ((MemoryManager.mk 1 [(8, 64)] (writeByte (fun _ => 0) 80 255)).Free 8
        (64 + 0 * 8)).2.1 = FreeResult.success
    ∧ (((MemoryManager.mk 1 [(8, 64)] (writeByte (fun _ => 0) 80 255)).Free 8
        (64 + 0 * 8)).1.Allocate 8 0).2 = some (64 + 0 * 8) :=
  ⟨by decide,
    C6_lifo_reuse (MemoryManager.mk 1 [(8, 64)] (writeByte (fun _ => 0) 80 255))
      8 64 1 0 0 (by decide) (by norm_num) rfl (by norm_num)
      (by norm_num) (by decide)⟩

/-- C5: for every pool state and every in-range block address
`A = base + i * blockSize` whose bitmap bit is 0, `Free` fails reporting a
double free and mutates nothing (the manager is returned identically);
consequently, freeing the same address twice makes the first call succeed
and the second fail as a double free with the free list and bitmap exactly
as the first free left them. -/
theorem C5_double_free_noop (σ : MemoryManager) (size base N i : Nat)
    (hfind : mapFind σ.mPool size = some base) (hbase : 0 < base)
    (hM : σ.mNumBlocksPerPool = N) (hi : i < N) (hsz : 8 ≤ size) (hdvd : 8 ∣ size)
    (hN32 : N < 2 ^ 32) (hb : base + size * N + N + 64 ≤ 2 ^ 64) :
    (readByte σ.mem (bitAddr base size N (base + i * size))
        &&& 1 <<< bitShift base size (base + i * size) = 0 →
      σ.Free size (base + i * size) = (σ, FreeResult.doubleFree, base + i * size))
    ∧ (readByte σ.mem (bitAddr base size N (base + i * size))
        &&& 1 <<< bitShift base size (base + i * size) ≠ 0 →
      (σ.Free size (base + i * size)).2.1 = FreeResult.success
      ∧ (σ.Free size (base + i * size)).1.Free size (base + i * size)
          = ((σ.Free size (base + i * size)).1, FreeResult.doubleFree,
              base + i * size)) := by
  have hds : size / 8 * 8 = size := Nat.div_mul_cancel hdvd
  have hTR : trailerAddr base size N = base + size * N := by
    unfold trailerAddr
    have h1 : 8 * (size / 8 * N) = size / 8 * 8 * N := by ring
    rw [hds] at h1
    omega
  have he1 : i * size + size = (i + 1) * size := by ring
  have he2 : (i + 1) * size ≤ N * size := Nat.mul_le_mul_right size (by omega)
  have he3 : N * size = size * N := Nat.mul_comm N size
  have hAne : base + i * size ≠ 0 := by omega
  have hidx : blockIndex base size (base + i * size) = i :=
    blockIndex_eq base size i (by omega) (by omega) (by omega)
  have hBA : bitAddr base size N (base + i * size) = base + size * N + 8 + i / 8 := by
    unfold bitAddr
    rw [hidx, hTR]
  constructor
  · intro hbit
    rw [← hM] at hbit
    exact Free_doubleFree σ size (base + i * size) base hfind hAne hbit
  · intro hbit
    rw [← hM] at hbit
    obtain ⟨fP, fM, fmem, fres, _⟩ :=
      Free_success_parts σ size (base + i * size) base hfind hAne hbit
    refine ⟨fres, ?_⟩
    rw [hM] at hbit
    have hbyte : readByte (σ.Free size (base + i * size)).1.mem
        (bitAddr base size N (base + i * size))
        = readByte σ.mem (bitAddr base size N (base + i * size))
          ^^^ 1 <<< bitShift base size (base + i * size) := by
      rw [fmem, hM,
        readByte_writeWord_of_disjoint _ _ _ _ (Or.inr (by omega)) (by omega) (by omega),
        readByte_writeWord_of_disjoint _ _ _ _ (Or.inr (by omega)) (by omega) (by omega),
        readByte_writeByte_same _ _ _ (by omega)]
      have hx := xor_bit_clears (readByte σ.mem (bitAddr base size N (base + i * size)))
        (bitShift base size (base + i * size)) (readByte_lt _ _)
        (bitShift_lt base size (base + i * size)) hbit
      exact Nat.mod_eq_of_lt hx.2
    have hbit2 : readByte (σ.Free size (base + i * size)).1.mem
        (bitAddr base size
          (σ.Free size (base + i * size)).1.mNumBlocksPerPool (base + i * size))
        &&& 1 <<< bitShift base size (base + i * size) = 0 := by
      rw [fM, hM, hbyte]
      exact (xor_bit_clears (readByte σ.mem (bitAddr base size N (base + i * size)))
        (bitShift base size (base + i * size)) (readByte_lt _ _)
        (bitShift_lt base size (base + i * size)) hbit).1
    have hfind2 : mapFind (σ.Free size (base + i * size)).1.mPool size = some base := by
      rw [fP]; exact hfind
    exact Free_doubleFree (σ.Free size (base + i * size)).1 size (base + i * size) base
      hfind2 hAne hbit2

/-- Witness for `C5_double_free_noop`: one pool of blockSize 8, one block,
base 64, bitmap bit of block 0 set. -/
theorem C5_double_free_noop_witness :
    (readByte (writeByte (fun _ => 0) 80 255) (bitAddr 64 8 1 (64 + 0 * 8))
        &&& 1 <<< bitShift 64 8 (64 + 0 * 8) ≠ 0)
    ∧ (((MemoryManager.mk 1 [(8, 64)] (writeByte (fun _ => 0) 80 255)).Free 8
          (64 + 0 * 8)).2.1 = FreeResult.success
      ∧ ((MemoryManager.mk 1 [(8, 64)] (writeByte (fun _ => 0) 80 255)).Free 8
          (64 + 0 * 8)).1.Free 8 (64 + 0 * 8)
        = (((MemoryManager.mk 1 [(8, 64)] (writeByte (fun _ => 0) 80 255)).Free 8
            (64 + 0 * 8)).1, FreeResult.doubleFree, 64 + 0 * 8)) :=
  ⟨by decide,
    (C5_double_free_noop (MemoryManager.mk 1 [(8, 64)] (writeByte (fun _ => 0) 80 255))
      8 64 1 0 (by decide) (by norm_num) rfl (by norm_num) (by norm_num)
      (by norm_num) (by norm_num) (by norm_num)).2 (by decide)⟩

/-- C8 (amended): `Allocate` performs no bitmap-consistency check at all:
whenever the pool exists and the free list is nonempty it returns the head
block normally and sets that block's bitmap bit with a plain bitwise OR —
a bit that is already 1 is silently masked rather than treated as a fatal
invariant violation; no abort or panic branch exists (see
`C8_counterexample_no_abort` for a reachable state with the bit set). -/
theorem C8_no_fatal_check (σ : MemoryManager) (size nb base h : Nat)
    (hfind : mapFind σ.mPool size = some base) (hbase : base ≠ 0)
    (hh : readWord σ.mem (trailerAddr base size σ.mNumBlocksPerPool) = h) (hne : h ≠ 0)
    (hb : bitAddr base size σ.mNumBlocksPerPool h < 2 ^ 64) :
    (σ.Allocate size nb).2 = some h
    ∧ readByte (σ.Allocate size nb).1.mem (bitAddr base size σ.mNumBlocksPerPool h)
        = readByte σ.mem (bitAddr base size σ.mNumBlocksPerPool h)
          ||| 1 <<< bitShift base size h := by
  obtain ⟨_, _, gmem, gres⟩ :=
    Allocate_success_parts σ size nb base h hfind hbase hh hne
  have hstruct : trailerAddr base size σ.mNumBlocksPerPool + 8
      ≤ bitAddr base size σ.mNumBlocksPerPool h := by
    unfold bitAddr
    omega
  have hmask : 1 <<< bitShift base size h < 256 := by
    rw [Nat.shiftLeft_eq, Nat.one_mul]
    have h1 : (2 : Nat) ^ bitShift base size h ≤ 2 ^ 7 :=
      Nat.pow_le_pow_right (by norm_num) (by have := bitShift_lt base size h; omega)
    have h2 : (2 : Nat) ^ 7 = 128 := by norm_num
    omega
  refine ⟨gres, ?_⟩
  rw [gmem,
    readByte_writeWord_of_disjoint _ _ _ _ (Or.inr (by omega)) (by omega) (by omega),
    readByte_writeByte_same _ _ _ (by omega)]
  have e256 : (256 : Nat) = 2 ^ 8 := by norm_num
  have hor : readByte σ.mem (bitAddr base size σ.mNumBlocksPerPool h)
      ||| 1 <<< bitShift base size h < 256 := by
    rw [e256]
    exact Nat.or_lt_two_pow (by rw [← e256]; exact readByte_lt _ _)
      (by rw [← e256]; exact hmask)
  exact Nat.mod_eq_of_lt hor

/-- Witness for `C8_no_fatal_check` at the freshly constructed pool
`sigC8x`, whose uninitialized bitmap byte already has the head block's bit
set. -/
theorem C8_no_fatal_check_witness :
    (readWord sigC8x.mem (trailerAddr 64 8 sigC8x.mNumBlocksPerPool) = 64
      ∧ readByte sigC8x.mem (bitAddr 64 8 sigC8x.mNumBlocksPerPool 64) = 255)
    ∧ (sigC8x.Allocate 8 0).2 = some 64
    ∧ readByte (sigC8x.Allocate 8 0).1.mem (bitAddr 64 8 sigC8x.mNumBlocksPerPool 64)
        = readByte sigC8x.mem (bitAddr 64 8 sigC8x.mNumBlocksPerPool 64)
          ||| 1 <<< bitShift 64 8 64 :=
  ⟨⟨by decide, by decide⟩,
    C8_no_fatal_check sigC8x 8 0 64 64 (by decide) (by norm_num) (by decide)
      (by norm_num) (by decide)⟩

/-! ## C7: the block-address invariant over reachable states -/

theorem mem_blockList (base size N a : Nat) :
    a ∈ blockList base size N ↔ GoodAddr base size N a := by
  unfold blockList GoodAddr
  simp only [List.mem_map, List.mem_range]
  constructor
  · rintro ⟨i, hi, rfl⟩; exact ⟨i, hi, rfl⟩
  · rintro ⟨i, hi, rfl⟩; exact ⟨i, hi, rfl⟩

theorem nodup_blockList (base size N : Nat) (hsz : 0 < size) :
    (blockList base size N).Nodup := by
  unfold blockList
  refine List.Nodup.map ?_ (List.nodup_range N)
  intro x y hxy
  have hxy2 : base + x * size = base + y * size := hxy
  have h : x * size = y * size := by omega
  exact Nat.eq_of_mul_eq_mul_right hsz h

theorem goodAddr_disjoint (base size N x y : Nat) (hsz : 8 ≤ size)
    (hx : GoodAddr base size N x) (hy : GoodAddr base size N y) (hne : x ≠ y) :
    x + 8 ≤ y ∨ y + 8 ≤ x := by
  obtain ⟨i, hi, rfl⟩ := hx
  obtain ⟨j, hj, rfl⟩ := hy
  have hij : i ≠ j := by
    intro h
    exact hne (by rw [h])
  rcases Nat.lt_or_ge i j with h | h
  · left
    have h1 : (i + 1) * size ≤ j * size := Nat.mul_le_mul_right size (by omega)
    have e : i * size + size = (i + 1) * size := by ring
    omega
  · right
    have h1 : (j + 1) * size ≤ i * size := Nat.mul_le_mul_right size (by omega)
    have e : j * size + size = (j + 1) * size := by ring
    omega

theorem goodAddr_below_trailer (base size N x : Nat) (hsz : 8 ≤ size) (hdvd : 8 ∣ size)
    (hx : GoodAddr base size N x) : x + 8 ≤ trailerAddr base size N := by
  obtain ⟨i, hi, rfl⟩ := hx
  rw [trailerAddr_eq_of_dvd base size N hdvd]
  have h1 : (i + 1) * size ≤ N * size := Nat.mul_le_mul_right size (by omega)
  have e : i * size + size = (i + 1) * size := by ring
  omega

theorem bitAddr_bounds (base size N a i : Nat) (hsz : 0 < size) (hN : N < 2 ^ 32)
    (hi : i < N) (ha : a = base + i * size) (hblt : base + i * size < 2 ^ 64) :
    trailerAddr base size N + 8 ≤ bitAddr base size N a
    ∧ bitAddr base size N a ≤ trailerAddr base size N + 8 + N := by
  subst ha
  have hidx := blockIndex_eq base size i hsz (by omega) hblt
  unfold bitAddr
  rw [hidx]
  omega

/-- Every state reachable through the public operations (with `Free` used on
currently-allocated addresses, per its contract) satisfies the pool
invariant: for blockSize a positive multiple of the pointer width below
2048, the free list and the allocated set only ever contain in-range block
addresses `base + i * blockSize`. -/
theorem reach_poolInv (m0 : Mem) (size base N : Nat)
    (hsz : 8 ≤ size) (hdvd : 8 ∣ size) (hlt : size < 2048) (hbase : 0 < base)
    (hN16 : N < 65536) (hb : base + (N + 1) * size + N + 64 ≤ 2 ^ 64) :
    ∀ σ A, Reach m0 size base N σ A → PoolInv size base N σ A := by
  have hds : size / 8 * 8 = size := Nat.div_mul_cancel hdvd
  have hTRd : trailerAddr base size N = base + N * size :=
    trailerAddr_eq_of_dvd base size N hdvd
  have hNs : N * size + size = (N + 1) * size := by ring
  intro σ A hreach
  induction hreach with
  | init =>
      refine ⟨freshPool_mN m0 base size N, freshPool_mPool m0 base size N,
        blockList base size N, ?_, ?_, ?_⟩
      · rw [freshPool_mem m0 base size N hN16]
        have hbd : base + (N + 1) * (size / 8 * 8) + 16 ≤ 2 ^ 64 := by
          rw [hds]; omega
        have h := isFreeList_init m0 base size N hsz hlt hbd
        rw [hds] at h
        exact h
      · intro x hx
        rw [List.append_nil] at hx
        exact (mem_blockList base size N x).mp hx
      · rw [List.append_nil]
        exact nodup_blockList base size N (by omega)
  | alloc σ A hr ih =>
      obtain ⟨hM, hP, fl, hfl, hgood, hnd⟩ := ih
      have hfind : mapFind σ.mPool size = some base := by rw [hP]; simp [mapFind]
      rcases fl with _ | ⟨a, t⟩
      · have hh : readWord σ.mem (trailerAddr base size σ.mNumBlocksPerPool) = 0 := by
          rw [hM]; exact hfl
        have hex := Allocate_exhausted σ size 0 base hfind (by omega) hh
        rw [hex]
        exact ⟨hM, hP, [], hfl, hgood, hnd⟩
      · obtain ⟨hhead, htail⟩ := hfl
        have hgA : GoodAddr base size N a := hgood a (by simp)
        obtain ⟨i, hi, hae⟩ := hgA
        have hane : a ≠ 0 := by rw [hae]; omega
        have hh : readWord σ.mem (trailerAddr base size σ.mNumBlocksPerPool) = a := by
          rw [hM]; exact hhead
        obtain ⟨gP, gM, gmem, gres⟩ :=
          Allocate_success_parts σ size 0 base a hfind (by omega) hh hane
        rw [hM] at gmem
        have hx8 : a + 8 ≤ trailerAddr base size N :=
          goodAddr_below_trailer base size N a hsz hdvd ⟨i, hi, hae⟩
        obtain ⟨hBA1, hBA2⟩ := bitAddr_bounds base size N a i (by omega) (by omega) hi hae
          (by omega)
        have hnext : readWord (σ.Allocate size 0).1.mem (trailerAddr base size N)
            = readWord σ.mem a := by
          rw [gmem, readWord_writeWord_same _ _ _ (by omega),
            readWord_writeByte_of_disjoint _ _ _ _ (Or.inr (by omega)) (by omega) (by omega)]
          exact Nat.mod_eq_of_lt (readWord_lt _ _)
        have hperm : (t ++ a :: A).Perm ((a :: t) ++ A) := by
          have h3 : a :: (t ++ A) = (a :: t) ++ A := by simp
          rw [← h3]
          exact List.perm_middle
        simp only [gres, pushAlloc]
        refine ⟨by rw [gM, hM], by rw [gP, hP], t, ?_, ?_, ?_⟩
        · rw [hnext]
          refine isFreeList_congr t σ.mem _ _ htail ?_
          intro x hx
          have hgx : GoodAddr base size N x := hgood x (by simp [hx])
          have hx8b : x + 8 ≤ trailerAddr base size N :=
            goodAddr_below_trailer base size N x hsz hdvd hgx
          rw [gmem,
            readWord_writeWord_of_disjoint _ _ _ _ (Or.inl (by omega)) (by omega) (by omega),
            readWord_writeByte_of_disjoint _ _ _ _ (Or.inr (by omega)) (by omega) (by omega)]
        · intro y hy
          exact hgood y (hperm.mem_iff.mp hy)
        · exact (hperm.nodup_iff).mpr hnd
  | free σ A a hr hmem ih =>
      obtain ⟨hM, hP, fl, hfl, hgood, hnd⟩ := ih
      have hfind : mapFind σ.mPool size = some base := by rw [hP]; simp [mapFind]
      have hgA : GoodAddr base size N a := hgood a (by simp [hmem])
      obtain ⟨i, hi, hae⟩ := hgA
      have hane : a ≠ 0 := by rw [hae]; omega
      by_cases hbit : readByte σ.mem (bitAddr base size σ.mNumBlocksPerPool a)
          &&& 1 <<< bitShift base size a = 0
      · have hdf := Free_doubleFree σ size a base hfind hane hbit
        rw [hdf]
        rw [if_neg (by simp)]
        exact ⟨hM, hP, fl, hfl, hgood, hnd⟩
      · obtain ⟨fP, fM, fmem, fres, _⟩ := Free_success_parts σ size a base hfind hane hbit
        rw [hM] at fmem
        have hx8 : a + 8 ≤ trailerAddr base size N :=
          goodAddr_below_trailer base size N a hsz hdvd ⟨i, hi, hae⟩
        obtain ⟨hBA1, hBA2⟩ := bitAddr_bounds base size N a i (by omega) (by omega) hi hae
          (by omega)
        rw [readWord_writeByte_of_disjoint _ _ _ _ (Or.inr (by omega)) (by omega) (by omega)]
          at fmem
        rw [fres, if_pos rfl]
        have hpermA : A.Perm (a :: A.erase a) := List.perm_cons_erase hmem
        have hperm2 : (fl ++ A).Perm ((a :: fl) ++ A.erase a) := by
          have h1 : (fl ++ A).Perm (fl ++ (a :: A.erase a)) := hpermA.append_left fl
          have h2 : (fl ++ (a :: A.erase a)).Perm (a :: (fl ++ A.erase a)) :=
            List.perm_middle
          have h3 : a :: (fl ++ A.erase a) = (a :: fl) ++ A.erase a := by simp
          rw [← h3]
          exact h1.trans h2
        refine ⟨by rw [fM, hM], by rw [fP, hP], a :: fl, ?_, ?_, ?_⟩
        · have hTRr : readWord (σ.Free size a).1.mem (trailerAddr base size N) = a := by
            rw [fmem, readWord_writeWord_same _ _ _ (by omega)]
            exact Nat.mod_eq_of_lt (by omega)
          rw [hTRr]
          refine ⟨rfl, ?_⟩
          have hra : readWord (σ.Free size a).1.mem a
              = readWord σ.mem (trailerAddr base size N) := by
            rw [fmem,
              readWord_writeWord_of_disjoint _ _ _ _ (Or.inl (by omega)) (by omega) (by omega),
              readWord_writeWord_same _ _ _ (by omega)]
            exact Nat.mod_eq_of_lt (readWord_lt _ _)
          rw [hra]
          refine isFreeList_congr fl σ.mem _ _ hfl ?_
          intro x hx
          have hgx : GoodAddr base size N x := hgood x (by simp [hx])
          have hx8b : x + 8 ≤ trailerAddr base size N :=
            goodAddr_below_trailer base size N x hsz hdvd hgx
          have hxa : x ≠ a := by
            intro hcon
            have hdisj := List.disjoint_of_nodup_append hnd
            exact hdisj hx (by rw [← hcon] at hmem; exact hmem)
          have hsep := goodAddr_disjoint base size N x a hsz hgx ⟨i, hi, hae⟩ hxa
          rw [fmem,
            readWord_writeWord_of_disjoint _ _ _ _ (Or.inl (by omega)) (by omega) (by omega),
            readWord_writeWord_of_disjoint _ _ _ _ hsep (by omega) (by omega),
            readWord_writeByte_of_disjoint _ _ _ _ (Or.inr (by omega)) (by omega) (by omega)]
        · intro y hy
          exact hgood y (hperm2.mem_iff.mpr hy)
        · exact (hperm2.nodup_iff).mp hnd

/-- C7 (amended): for blockSize a positive multiple of the pointer width
(8 ∣ blockSize, 8 ≤ blockSize < 2048 — the `uint8_t` stride field caps the
block size, and for non-multiples the blocks are laid `blockSize / 8 * 8`
bytes apart, see `C7_counterexample_size12`), in every reachable pool state
every block address handed out by `Allocate`, every currently-allocated
address, and every address linked into the free list equals
`region_base + i * blockSize` for some `0 ≤ i < blockCount`. -/
theorem C7_addresses_in_range_amended (m0 : Mem) (size base N : Nat)
    (hsz : 8 ≤ size) (hdvd : 8 ∣ size) (hlt : size < 2048) (hbase : 0 < base)
    (hN16 : N < 65536) (hb : base + (N + 1) * size + N + 64 ≤ 2 ^ 64) :
    ∀ σ A, Reach m0 size base N σ A →
      (∀ a, (σ.Allocate size 0).2 = some a → GoodAddr base size N a)
      ∧ (∀ a ∈ A, GoodAddr base size N a)
      ∧ ∃ fl, IsFreeList σ.mem (readWord σ.mem (trailerAddr base size N)) fl
          ∧ ∀ a ∈ fl, GoodAddr base size N a := by
  intro σ A hreach
  obtain ⟨hM, hP, fl, hfl, hgood, hnd⟩ :=
    reach_poolInv m0 size base N hsz hdvd hlt hbase hN16 hb σ A hreach
  have hfind : mapFind σ.mPool size = some base := by rw [hP]; simp [mapFind]
  refine ⟨?_, fun a ha => hgood a (by simp [ha]), fl, hfl,
    fun a ha => hgood a (by simp [ha])⟩
  intro a hres
  rcases fl with _ | ⟨x, t⟩
  · have hh : readWord σ.mem (trailerAddr base size σ.mNumBlocksPerPool) = 0 := by
      rw [hM]; exact hfl
    rw [Allocate_exhausted σ size 0 base hfind (by omega) hh] at hres
    exact absurd hres (by simp)
  · obtain ⟨hhead, htail⟩ := hfl
    have hgx : GoodAddr base size N x := hgood x (by simp)
    have hh : readWord σ.mem (trailerAddr base size σ.mNumBlocksPerPool) = x := by
      rw [hM]; exact hhead
    have hxne : x ≠ 0 := by
      obtain ⟨i, hi, rfl⟩ := hgx
      omega
    have hsome := (Allocate_success_parts σ size 0 base x hfind (by omega) hh hxne).2.2.2
    rw [hsome] at hres
    have hxa : x = a := Option.some.inj hres
    rw [← hxa]
    exact hgx

/-- Witness for `C7_addresses_in_range_amended` at the initial reachable
state of a one-block pool of blockSize 8 at base 16. -/
theorem C7_addresses_in_range_amended_witness :
    ((8 : Nat) ∣ 8 ∧ 16 + (1 + 1) * 8 + 1 + 64 ≤ 2 ^ 64)
    ∧ ((∀ a, ((freshPool (fun _ => 0) 16 8 1).Allocate 8 0).2 = some a →
          GoodAddr 16 8 1 a)
      ∧ (∀ a ∈ ([] : List Nat), GoodAddr 16 8 1 a)
      ∧ ∃ fl, IsFreeList (freshPool (fun _ => 0) 16 8 1).mem
            (readWord (freshPool (fun _ => 0) 16 8 1).mem (trailerAddr 16 8 1)) fl
          ∧ ∀ a ∈ fl, GoodAddr 16 8 1 a) :=
  ⟨⟨by norm_num, by norm_num⟩,
    C7_addresses_in_range_amended (fun _ => 0) 8 16 1 (by norm_num) (by norm_num)
      (by norm_num) (by norm_num) (by norm_num) (by norm_num)
      (freshPool (fun _ => 0) 16 8 1) [] Reach.init⟩

/-- C10 (amended): for every `blocksPerPool` argument `n < 2 ^ 16` (the
block count passes through the `uint16_t` parameter of `InitializePool`, so
in general each pool receives `n mod 2 ^ 16` blocks — see
`C10_counterexample_uint16_truncation`), construction eagerly creates
exactly three default pools, for block sizes 8, 16 and 32 bytes
(`2 ^ 3 .. 2 ^ 5`), each laid out with `n` blocks (a free list of length
`n`); no other size class exists in the registry. -/
theorem C10_default_pools_amended (m : Mem) (n b8 b16 b32 : Nat)
    (hn : n < 65536)
    (hd1 : b8 + 8 * n + 16 ≤ b16) (hd2 : b16 + 16 * n + 16 ≤ b32)
    (hb : b32 + 32 * n + 64 ≤ 2 ^ 64) :
    (mkMemoryManager m n b8 b16 b32).mPool = [(8, b8), (16, b16), (32, b32)]
    ∧ IsFreeList (mkMemoryManager m n b8 b16 b32).mem
        (readWord (mkMemoryManager m n b8 b16 b32).mem (trailerAddr b8 8 n))
        (blockList b8 8 n)
    ∧ IsFreeList (mkMemoryManager m n b8 b16 b32).mem
        (readWord (mkMemoryManager m n b8 b16 b32).mem (trailerAddr b16 16 n))
        (blockList b16 16 n)
    ∧ IsFreeList (mkMemoryManager m n b8 b16 b32).mem
        (readWord (mkMemoryManager m n b8 b16 b32).mem (trailerAddr b32 32 n))
        (blockList b32 32 n)
    ∧ (blockList b8 8 n).length = n ∧ (blockList b16 16 n).length = n
    ∧ (blockList b32 32 n).length = n := by
  have hmem : (mkMemoryManager m n b8 b16 b32).mem
      = initRegion (initRegion (initRegion m b8 8 n) b16 16 n) b32 32 n := by
    show initRegion (initRegion (initRegion m b8 8 (n % 2 ^ 32 % 65536)) b16 16
        (n % 2 ^ 32 % 65536)) b32 32 (n % 2 ^ 32 % 65536) = _
    have hnn : n % 2 ^ 32 % 65536 = n := by omega
    rw [hnn]
  have hlen : ∀ b s, (blockList b s n).length = n := by
    intro b s
    simp [blockList]
  have hmax : max n 1 ≤ n + 1 := by omega
  have hm32 : max n 1 * 32 ≤ 32 * n + 32 := by
    have h := Nat.mul_le_mul_right 32 hmax
    have e : (n + 1) * 32 = 32 * n + 32 := by ring
    omega
  have hm16 : max n 1 * 16 ≤ 16 * n + 16 := by
    have h := Nat.mul_le_mul_right 16 hmax
    have e : (n + 1) * 16 = 16 * n + 16 := by ring
    omega
  have hn8 : (n + 1) * 8 = 8 * n + 8 := by ring
  have hn16 : (n + 1) * 16 = 16 * n + 16 := by ring
  have hn32 : (n + 1) * 32 = 32 * n + 32 := by ring
  have hpool8 : IsFreeList (mkMemoryManager m n b8 b16 b32).mem
      (readWord (mkMemoryManager m n b8 b16 b32).mem (trailerAddr b8 8 n))
      (blockList b8 8 n) := by
    have h := isFreeList_init m b8 8 n (by norm_num) (by norm_num) (by omega)
    have e8 : (8 : Nat) / 8 * 8 = 8 := by norm_num
    rw [e8] at h
    have htr : trailerAddr b8 8 n = b8 + n * 8 :=
      trailerAddr_eq_of_dvd b8 8 n (by norm_num)
    have hframe : ∀ a, a + 8 ≤ b8 + 8 * n + 8 →
        readWord (mkMemoryManager m n b8 b16 b32).mem a
          = readWord (initRegion m b8 8 n) a := by
      intro a ha
      have e16b : (16 : Nat) / 8 * 8 = 16 := by norm_num
      have e32b : (32 : Nat) / 8 * 8 = 32 := by norm_num
      rw [hmem,
        readWord_initRegion_of_outside _ b32 32 n a (by norm_num) (by norm_num)
          (Or.inl (by omega)) (by omega) (by rw [e32b]; omega),
        readWord_initRegion_of_outside _ b16 16 n a (by norm_num) (by norm_num)
          (Or.inl (by omega)) (by omega) (by rw [e16b]; omega)]
    have htrr := hframe (trailerAddr b8 8 n) (by rw [htr]; omega)
    rw [htrr]
    refine isFreeList_congr _ (initRegion m b8 8 n) _ _ h ?_
    intro x hx
    obtain ⟨i, hi, rfl⟩ := (mem_blockList b8 8 n x).mp hx
    refine hframe _ ?_
    have h1 : (i + 1) * 8 ≤ n * 8 := Nat.mul_le_mul_right 8 (by omega)
    have e : i * 8 + 8 = (i + 1) * 8 := by ring
    omega
  have hpool16 : IsFreeList (mkMemoryManager m n b8 b16 b32).mem
      (readWord (mkMemoryManager m n b8 b16 b32).mem (trailerAddr b16 16 n))
      (blockList b16 16 n) := by
    have h := isFreeList_init (initRegion m b8 8 n) b16 16 n (by norm_num) (by norm_num)
      (by omega)
    have e16 : (16 : Nat) / 8 * 8 = 16 := by norm_num
    rw [e16] at h
    have htr : trailerAddr b16 16 n = b16 + n * 16 :=
      trailerAddr_eq_of_dvd b16 16 n (by norm_num)
    have hframe : ∀ a, a + 8 ≤ b16 + 16 * n + 8 →
        readWord (mkMemoryManager m n b8 b16 b32).mem a
          = readWord (initRegion (initRegion m b8 8 n) b16 16 n) a := by
      intro a ha
      have e32b : (32 : Nat) / 8 * 8 = 32 := by norm_num
      rw [hmem,
        readWord_initRegion_of_outside _ b32 32 n a (by norm_num) (by norm_num)
          (Or.inl (by omega)) (by omega) (by rw [e32b]; omega)]
    have htrr := hframe (trailerAddr b16 16 n) (by rw [htr]; omega)
    rw [htrr]
    refine isFreeList_congr _ (initRegion (initRegion m b8 8 n) b16 16 n) _ _ h ?_
    intro x hx
    obtain ⟨i, hi, rfl⟩ := (mem_blockList b16 16 n x).mp hx
    refine hframe _ ?_
    have h1 : (i + 1) * 16 ≤ n * 16 := Nat.mul_le_mul_right 16 (by omega)
    have e : i * 16 + 16 = (i + 1) * 16 := by ring
    omega
  have hpool32 : IsFreeList (mkMemoryManager m n b8 b16 b32).mem
      (readWord (mkMemoryManager m n b8 b16 b32).mem (trailerAddr b32 32 n))
      (blockList b32 32 n) := by
    have h := isFreeList_init (initRegion (initRegion m b8 8 n) b16 16 n) b32 32 n
      (by norm_num) (by norm_num) (by omega)
    have e32 : (32 : Nat) / 8 * 8 = 32 := by norm_num
    rw [e32] at h
    rw [hmem]
    exact h
  exact ⟨rfl, hpool8, hpool16, hpool32, hlen b8 8, hlen b16 16, hlen b32 32⟩

/-- Witness for `C10_default_pools_amended` at `n = 10` with regions at
1000, 2000, 3000 over the zeroed heap. -/
theorem C10_default_pools_amended_witness :
    ((10 : Nat) < 65536 ∧ 1000 + 8 * 10 + 16 ≤ 2000 ∧ 2000 + 16 * 10 + 16 ≤ 3000)
    ∧ (mkMemoryManager (fun _ => 0) 10 1000 2000 3000).mPool
        = [(8, 1000), (16, 2000), (32, 3000)]
    ∧ IsFreeList (mkMemoryManager (fun _ => 0) 10 1000 2000 3000).mem
        (readWord (mkMemoryManager (fun _ => 0) 10 1000 2000 3000).mem
          (trailerAddr 1000 8 10))
        (blockList 1000 8 10)
    ∧ IsFreeList (mkMemoryManager (fun _ => 0) 10 1000 2000 3000).mem
        (readWord (mkMemoryManager (fun _ => 0) 10 1000 2000 3000).mem
          (trailerAddr 2000 16 10))
        (blockList 2000 16 10)
    ∧ IsFreeList (mkMemoryManager (fun _ => 0) 10 1000 2000 3000).mem
        (readWord (mkMemoryManager (fun _ => 0) 10 1000 2000 3000).mem
          (trailerAddr 3000 32 10))
        (blockList 3000 32 10)
    ∧ (blockList 1000 8 10).length = 10 ∧ (blockList 2000 16 10).length = 10
    ∧ (blockList 3000 32 10).length = 10 :=
  ⟨⟨by norm_num, by norm_num, by norm_num⟩,
    C10_default_pools_amended (fun _ => 0) 10 1000 2000 3000 (by norm_num)
      (by norm_num) (by norm_num) (by norm_num)⟩
